import Mathlib

/-!
Verification development for the img2pix image-processing core
(`src/utility/image_processor.py`, class `ImageProcessor`).

The pixel pipeline is embedded shallowly:
* images are inductive values carrying a mode tag (RGB / RGBA / LA / L / P),
  dimensions and a row-major list of 8-bit samples modelled as `Nat`;
* the Pillow primitives the source delegates to (`Image.resize` with
  `Resampling.NEAREST`, `Image.paste` with an `L`-mode alpha mask,
  `Image.quantize` with `Quantize.MEDIANCUT`, `ImageEnhance.Contrast` /
  `ImageEnhance.Color`) are embedded by their library semantics; nearest
  resize follows Pillow's `ImagingScaleAffine` pixel-center sampling
  `floor((i + 0.5) * in / out)`, written with exact rational arithmetic as
  `((2 * i + 1) * in) / (2 * out)` over `Nat`;
* float parameters (`contrast`, `saturation`) are modelled as `ℚ`;
* the stateful `ImageProcessor` object becomes an explicit `ProcessorState`
  record, and `apply_pixelation` a function from state to `Bool × state`.
-/

namespace Img2Pix

/-- A three-channel color sample (one pixel of an RGB image). -/
structure RGB where
  r : Nat
  g : Nat
  b : Nat
deriving DecidableEq, Repr

/-- A four-channel color sample (one pixel of an RGBA image). -/
structure RGBA where
  r : Nat
  g : Nat
  b : Nat
  a : Nat
deriving DecidableEq, Repr

/-- Drop the alpha channel of a sample, as PIL's `RGBA -> RGB` convert does. -/
def rgbOf (p : RGBA) : RGB := ⟨p.r, p.g, p.b⟩

/-- A PIL image: mode tag, size, and row-major samples.  The modes that
`image_processor.py` ever touches are `RGB`, `RGBA`, `LA`, `L` and `P`
(palette-indexed with an optional declared transparency entry in `info`). -/
inductive Image where
  | rgb  (w h : Nat) (px : List RGB)
  | rgba (w h : Nat) (px : List RGBA)
  | la   (w h : Nat) (px : List (Nat × Nat))
  | l    (w h : Nat) (px : List Nat)
  | pal  (w h : Nat) (px : List Nat) (palette : List RGB) (transparencyInfo : Bool)
deriving DecidableEq, Repr

/-- Width of an image (`image.size[0]`). -/
def Image.width : Image → Nat
  | .rgb w _ _ => w
  | .rgba w _ _ => w
  | .la w _ _ => w
  | .l w _ _ => w
  | .pal w _ _ _ _ => w

/-- Height of an image (`image.size[1]`). -/
def Image.height : Image → Nat
  | .rgb _ h _ => h
  | .rgba _ h _ => h
  | .la _ h _ => h
  | .l _ h _ => h
  | .pal _ h _ _ _ => h

/-- Sample at flat row-major index `n`, read back as an RGBA quadruple
(gray and palette modes expand the way PIL's `convert` would; modes without
an alpha band read back alpha `255`).  Out-of-range reads give a zero
sample; they never occur on well-formed buffers. -/
def Image.getPx : Image → Nat → RGBA
  | .rgb _ _ px, n => let c := px.getD n ⟨0, 0, 0⟩; ⟨c.r, c.g, c.b, 255⟩
  | .rgba _ _ px, n => px.getD n ⟨0, 0, 0, 0⟩
  | .la _ _ px, n => let p := px.getD n (0, 0); ⟨p.1, p.1, p.1, p.2⟩
  | .l _ _ px, n => let v := px.getD n 0; ⟨v, v, v, 255⟩
  | .pal _ _ px palette _, n =>
      let c := palette.getD (px.getD n 0) ⟨0, 0, 0⟩; ⟨c.r, c.g, c.b, 255⟩

/-- RGB view of the samples, as produced by PIL's `convert('RGB')`
(alpha dropped, gray replicated, palette looked up). -/
def Image.rgbList : Image → List RGB
  | .rgb _ _ px => px
  | .rgba _ _ px => px.map rgbOf
  | .la _ _ px => px.map (fun p => ⟨p.1, p.1, p.1⟩)
  | .l _ _ px => px.map (fun v => ⟨v, v, v⟩)
  | .pal _ _ px palette _ => px.map (fun i => palette.getD i ⟨0, 0, 0⟩)

/-- Alpha band of the samples, for the modes that carry one. -/
def Image.alphaList : Image → List Nat
  | .rgba _ _ px => px.map (fun p => p.a)
  | .la _ _ px => px.map (fun p => p.2)
  | _ => []

/-! ## Nearest-neighbor resize

Pillow's `Image.resize(size, Resampling.NEAREST)` goes through
`ImagingScaleAffine`: output pixel `(i, j)` of an `outW × outH` result reads
the input pixel at `(floor((i + 0.5) * inW / outW), floor((j + 0.5) * inH / outH))`.
With exact arithmetic over `Nat` that source index is
`((2 * i + 1) * inL) / (2 * outL)` per axis.  (Pillow short-circuits the
equal-size case to a copy; the formula yields the identity there as well, so
one formula embeds both paths.) -/

/-- Source index sampled by Pillow nearest resampling along one axis. -/
def scaleIndex (inL outL i : Nat) : Nat := ((2 * i + 1) * inL) / (2 * outL)

/-- Resample a row-major sample list of size `w × h` to size `w2 × h2` with
nearest-neighbor sampling; `d` is the (never reached on well-formed input)
default sample. -/
def resamplePx (px : List α) (d : α) (w h w2 h2 : Nat) : List α :=
  (List.range (h2 * w2)).map (fun n =>
    px.getD (scaleIndex h h2 (n / w2) * w + scaleIndex w w2 (n % w2)) d)

/-- The embedding of `img.resize((w2, h2), Image.Resampling.NEAREST)`:
mode is preserved, every band is resampled. -/
def Image.resizeNearest : Image → Nat → Nat → Image
  | .rgb w h px, w2, h2 => .rgb w2 h2 (resamplePx px ⟨0, 0, 0⟩ w h w2 h2)
  | .rgba w h px, w2, h2 => .rgba w2 h2 (resamplePx px ⟨0, 0, 0, 0⟩ w h w2 h2)
  | .la w h px, w2, h2 => .la w2 h2 (resamplePx px (0, 0) w h w2 h2)
  | .l w h px, w2, h2 => .l w2 h2 (resamplePx px 0 w h w2 h2)
  | .pal w h px palette t, w2, h2 => .pal w2 h2 (resamplePx px 0 w h w2 h2) palette t

theorem width_resizeNearest (img : Image) (w2 h2 : Nat) :
    (img.resizeNearest w2 h2).width = w2 := by
  cases img <;> rfl

theorem height_resizeNearest (img : Image) (w2 h2 : Nat) :
    (img.resizeNearest w2 h2).height = h2 := by
  cases img <;> rfl

theorem getD_resamplePx (px : List α) (d : α) (w h w2 h2 i j : Nat)
    (hi : i < w2) (hj : j < h2) :
    (resamplePx px d w h w2 h2).getD (j * w2 + i) d =
      px.getD (scaleIndex h h2 j * w + scaleIndex w w2 i) d := by
  have hlt : j * w2 + i < h2 * w2 := by
    calc j * w2 + i < j * w2 + w2 := by omega
    _ = (j + 1) * w2 := by ring
    _ ≤ h2 * w2 := Nat.mul_le_mul_right _ hj
  have hdiv : (j * w2 + i) / w2 = j := by
    rw [Nat.add_comm, Nat.add_mul_div_right _ _ (by omega : 0 < w2),
      Nat.div_eq_of_lt hi, Nat.zero_add]
  have hmod : (j * w2 + i) % w2 = i := by
    rw [Nat.add_comm, Nat.add_mul_mod_self_right, Nat.mod_eq_of_lt hi]
  unfold resamplePx
  rw [List.getD_eq_getElem?_getD, List.getElem?_map, List.getElem?_range hlt]
  simp [hdiv, hmod]

/-- Reading a pixel of a nearest-resized image: output `(i, j)` is the input
sample at the Pillow nearest source coordinates. -/
theorem getPx_resizeNearest (img : Image) (w2 h2 i j : Nat)
    (hi : i < w2) (hj : j < h2) :
    (img.resizeNearest w2 h2).getPx (j * w2 + i) =
      img.getPx (scaleIndex img.height h2 j * img.width + scaleIndex img.width w2 i) := by
  cases img <;>
    simp only [Image.resizeNearest, Image.getPx, Image.width, Image.height] <;>
    rw [getD_resamplePx _ _ _ _ _ _ _ _ hi hj]

/-! ## Transparency detection

Embedding of `ImageProcessor._has_transparency` (lines 86-99): the check is
purely mode-based — `image.mode in ('RGBA', 'LA') or
(image.mode == 'P' and 'transparency' in image.info)`. -/

/-- The embedding of `ImageProcessor._has_transparency`. -/
def _has_transparency : Image → Bool
  | .rgba _ _ _ => true
  | .la _ _ _ => true
  | .pal _ _ _ _ t => t
  | _ => false

/-- Whether the buffer has an alpha band holding some value other than 255
(a property of the stored samples, used to state the spec's description of
transparency detection). -/
def hasNon255Alpha : Image → Bool
  | .rgba _ _ px => px.any (fun p => decide (p.a ≠ 255))
  | .la _ _ px => px.any (fun p => decide (p.2 ≠ 255))
  | _ => false

/-- Whether a palette-indexed source declares a designated transparent
index (`'transparency' in image.info` on a `P`-mode image). -/
def declaresTransparentIndex : Image → Bool
  | .pal _ _ _ _ t => t
  | _ => false

/-- Transparency detection as the spec's sentence describes it, for
comparison with the source's `_has_transparency`: an alpha channel with a
non-255 value, or a declared palette transparency. -/
def specDetectTransparency (img : Image) : Bool :=
  hasNon255Alpha img || declaresTransparentIndex img

/-- Whether the image's mode carries an alpha channel at all
(`mode in ('RGBA', 'LA')`). -/
def isAlphaMode : Image → Bool
  | .rgba _ _ _ => true
  | .la _ _ _ => true
  | _ => false

/-! ## Compositing onto a background

Embedding of `ImageProcessor._composite_with_background` (lines 101-121):
a fresh `RGB` canvas filled with the background color, then
`background.paste(image, mask=image.split()[3])` for RGBA input.  Pillow's
`paste` with an `L`-mode mask blends every channel with the macros of
`libImaging/Paste.c`:

    MULDIV255(a, b, tmp)  =  (tmp = a*b + 128, ((tmp >> 8) + tmp) >> 8)
    BLEND(mask, in1, in2) =  MULDIV255(in1, 255 - mask, ..) + MULDIV255(in2, mask, ..)

where `in1` is the pixel already on the canvas (the background) and `in2`
the pasted pixel.  For non-RGBA input the maskless `paste` just copies the
image converted to the canvas mode. -/

/-- Pillow's `MULDIV255` macro: the fast exact form of `round(a * b / 255)`. -/
def muldiv255 (a b : Nat) : Nat :=
  ((a * b + 128) / 256 + (a * b + 128)) / 256

/-- Pillow's `BLEND` macro from `Paste.c`, one channel: canvas value `oldV`
blended toward pasted value `newV` under mask value `mask`. -/
def blendChan (mask oldV newV : Nat) : Nat :=
  muldiv255 oldV (255 - mask) + muldiv255 newV mask

/-- One RGBA pixel pasted onto a background color through its own alpha. -/
def compositePixel (bg : RGB) (p : RGBA) : RGB :=
  ⟨blendChan p.a bg.r p.r, blendChan p.a bg.g p.g, blendChan p.a bg.b p.b⟩

/-- The embedding of `ImageProcessor._composite_with_background`. -/
def composite_with_background (img : Image) (bg : RGB) : Image :=
  match img with
  | .rgba w h px => .rgb w h (px.map (compositePixel bg))
  | other => .rgb other.width other.height other.rgbList

theorem width_composite (img : Image) (bg : RGB) :
    (composite_with_background img bg).width = img.width := by
  cases img <;> rfl

theorem height_composite (img : Image) (bg : RGB) :
    (composite_with_background img bg).height = img.height := by
  cases img <;> rfl

/-- The claim's per-channel compositing formula, written over `Nat`: the
nearest integer to `(a * v + (255 - a) * bg) / 255` (the exact value is
never a half-integer, so the tie rule is immaterial). -/
def roundedAlphaMix (a v bg : Nat) : Nat :=
  (2 * (a * v + (255 - a) * bg) + 255) / 510

/-- The `MULDIV255` bit trick computes `(x + 127) / 255` for every product
in range. -/
theorem muldiv255_eq (a b : Nat) (ha : a ≤ 255) (hb : b ≤ 255) :
    muldiv255 a b = (a * b + 127) / 255 := by
  have hx : a * b ≤ 65025 := by
    calc a * b ≤ 255 * 255 := Nat.mul_le_mul ha hb
    _ = 65025 := by norm_num
  unfold muldiv255
  omega

theorem muldiv255_255 (v : Nat) (hv : v ≤ 255) : muldiv255 v 255 = v := by
  rw [muldiv255_eq v 255 hv (le_refl 255)]
  omega

theorem muldiv255_zero (v : Nat) : muldiv255 v 0 = 0 := by
  unfold muldiv255
  omega

/-! ## Median-cut palette quantization

The source delegates quantization to the imaging library
(`image.quantize(colors=num_colors, method=Image.Quantize.MEDIANCUT)`
followed by `convert('RGB')`); that library code is not part of this
repository, and spec §9 directs that it be treated as the documented
algorithm contract of §4.4.  The definitions below therefore model it. -/

/-- Largest value of a channel over a box of colors. -/
def chMax (f : RGB → Nat) (box : List RGB) : Nat :=
  (box.map f).foldl max 0

/-- Smallest value of a channel over a box of colors. -/
def chMin (f : RGB → Nat) (box : List RGB) : Nat :=
  (box.map f).foldl min 255

/-- Range of a channel over a box. -/
def chRange (f : RGB → Nat) (box : List RGB) : Nat :=
  chMax f box - chMin f box

/-- Modelled from the spec: the largest per-channel range of a color box
(§4.4, "the largest-range axis of the current color box"). -/
def boxRange (box : List RGB) : Nat :=
  max (chRange (fun c => c.r) box) (max (chRange (fun c => c.g) box) (chRange (fun c => c.b) box))

/-- Channel selector for the largest-range axis of a box. -/
def widestChannel (box : List RGB) : RGB → Nat :=
  let rr := chRange (fun c => c.r) box
  let rg := chRange (fun c => c.g) box
  let rb := chRange (fun c => c.b) box
  if rg ≤ rr ∧ rb ≤ rr then fun c => c.r
  else if rb ≤ rg then fun c => c.g
  else fun c => c.b

/-- Insertion step of a stable sort of colors by a channel key. -/
def insertByKey (key : RGB → Nat) (c : RGB) : List RGB → List RGB
  | [] => [c]
  | d :: ds => if key c ≤ key d then c :: d :: ds else d :: insertByKey key c ds

/-- Stable insertion sort of colors by a channel key. -/
def sortByKey (key : RGB → Nat) : List RGB → List RGB
  | [] => []
  | c :: cs => insertByKey key c (sortByKey key cs)

/-- Modelled from the spec: split a color box at the median of its
largest-range axis (§4.4). -/
def splitBox (box : List RGB) : List RGB × List RGB :=
  let sorted := sortByKey (widestChannel box) box
  sorted.splitAt (sorted.length / 2)

/-- Split the first box whose range equals `m` (the current maximum),
leaving the others in place. -/
def splitFirstWith : List (List RGB) → Nat → List (List RGB)
  | [], _ => []
  | b :: bs, m =>
      if boxRange b = m then (splitBox b).1 :: (splitBox b).2 :: bs
      else b :: splitFirstWith bs m

/-- Modelled from the spec: one median-cut step — split the box with the
largest channel range, unless no box can be split further (§4.4,
"recurse until the box count reaches num_colors or a box cannot be split
further"). -/
def mcStep (boxes : List (List RGB)) : List (List RGB) :=
  let m := (boxes.map boxRange).foldl max 0
  if m = 0 then boxes else splitFirstWith boxes m

/-- Iterate the median-cut step `n` times. -/
def iterSplit : Nat → List (List RGB) → List (List RGB)
  | 0, bs => bs
  | n + 1, bs => iterSplit n (mcStep bs)

/-- Representative color of a box: the per-channel mean of its members. -/
def meanColor (box : List RGB) : RGB :=
  match box.length with
  | 0 => ⟨0, 0, 0⟩
  | n + 1 =>
      ⟨(box.map (fun c => c.r)).sum / (n + 1),
       (box.map (fun c => c.g)).sum / (n + 1),
       (box.map (fun c => c.b)).sum / (n + 1)⟩

/-- Squared per-channel Euclidean distance between two colors. -/
def sqDist (c d : RGB) : Nat :=
  (c.r - d.r) * (c.r - d.r) + (d.r - c.r) * (d.r - c.r) +
  (c.g - d.g) * (c.g - d.g) + (d.g - c.g) * (d.g - c.g) +
  (c.b - d.b) * (c.b - d.b) + (d.b - c.b) * (d.b - c.b)

/-- Nearest palette entry to a color (first entry on ties). -/
def nearestColor (pal : List RGB) (c : RGB) : RGB :=
  match pal with
  | [] => c
  | p :: ps => ps.foldl (fun best q => if sqDist q c < sqDist best c then q else best) p

/-- Modelled from the spec: the palette produced by recursive median cut
over the distinct colors of the input (§4.4). -/
def medianCutPalette (px : List RGB) (k : Nat) : List RGB :=
  (iterSplit (k - 1) [px.dedup]).map meanColor

/-- Modelled from the spec: `image.quantize(colors=k, method=MEDIANCUT)`
followed by `convert('RGB')` on an RGB sample list — build a palette of at
most `k` representatives by median cut and replace every pixel by its
nearest representative (§4.4). -/
def medianCutQuantizeRGB (px : List RGB) (k : Nat) : List RGB :=
  px.map (nearestColor (medianCutPalette px k))

/-- The embedding of `ImageProcessor.quantize_colors_with_alpha`
(lines 123-152): for RGBA input, quantize the RGB plane and reattach the
alpha band via `putalpha`; otherwise quantize and convert to RGB. -/
def quantize_colors_with_alpha (img : Image) (k : Nat) : Image :=
  match img with
  | .rgba w h px =>
      let q := medianCutQuantizeRGB (px.map rgbOf) k
      .rgba w h (List.zipWith (fun c p => ⟨c.r, c.g, c.b, p.a⟩) q px)
  | other => .rgb other.width other.height (medianCutQuantizeRGB other.rgbList k)

theorem width_quantize (img : Image) (k : Nat) :
    (quantize_colors_with_alpha img k).width = img.width := by
  cases img <;> rfl

theorem height_quantize (img : Image) (k : Nat) :
    (quantize_colors_with_alpha img k).height = img.height := by
  cases img <;> rfl

/-! Palette-size bookkeeping for the quantizer. -/

theorem length_splitFirstWith (bs : List (List RGB)) (m : Nat) :
    (splitFirstWith bs m).length ≤ bs.length + 1 := by
  induction bs with
  | nil => simp [splitFirstWith]
  | cons b bs ih =>
      unfold splitFirstWith
      by_cases hb : boxRange b = m
      · simp [hb]
      · simp [hb]
        omega

theorem length_splitFirstWith_ge (bs : List (List RGB)) (m : Nat) :
    bs.length ≤ (splitFirstWith bs m).length := by
  induction bs with
  | nil => simp [splitFirstWith]
  | cons b bs ih =>
      unfold splitFirstWith
      by_cases hb : boxRange b = m
      · simp [hb]
      · simp [hb]
        omega

theorem length_mcStep (bs : List (List RGB)) :
    (mcStep bs).length ≤ bs.length + 1 := by
  unfold mcStep
  by_cases hm : (bs.map boxRange).foldl max 0 = 0
  · simp [hm]
  · simpa [hm] using length_splitFirstWith bs ((bs.map boxRange).foldl max 0)

theorem length_mcStep_ge (bs : List (List RGB)) :
    bs.length ≤ (mcStep bs).length := by
  unfold mcStep
  by_cases hm : (bs.map boxRange).foldl max 0 = 0
  · simp [hm]
  · simpa [hm] using length_splitFirstWith_ge bs ((bs.map boxRange).foldl max 0)

theorem length_iterSplit (n : Nat) (bs : List (List RGB)) :
    (iterSplit n bs).length ≤ bs.length + n := by
  induction n generalizing bs with
  | zero => simp [iterSplit]
  | succ n ih =>
      unfold iterSplit
      calc (iterSplit n (mcStep bs)).length ≤ (mcStep bs).length + n := ih _
      _ ≤ bs.length + (n + 1) := by have := length_mcStep bs; omega

theorem length_iterSplit_ge (n : Nat) (bs : List (List RGB)) :
    bs.length ≤ (iterSplit n bs).length := by
  induction n generalizing bs with
  | zero => simp [iterSplit]
  | succ n ih =>
      unfold iterSplit
      calc bs.length ≤ (mcStep bs).length := length_mcStep_ge bs
      _ ≤ (iterSplit n (mcStep bs)).length := ih _

theorem medianCutPalette_length (px : List RGB) (k : Nat) (hk : 1 ≤ k) :
    (medianCutPalette px k).length ≤ k := by
  unfold medianCutPalette
  rw [List.length_map]
  have := length_iterSplit (k - 1) [px.dedup]
  simp at this
  omega

theorem medianCutPalette_ne_nil (px : List RGB) (k : Nat) :
    medianCutPalette px k ≠ [] := by
  unfold medianCutPalette
  have := length_iterSplit_ge (k - 1) [px.dedup]
  simp only [List.length_singleton] at this
  intro h
  rw [List.map_eq_nil_iff] at h
  simp [h] at this

theorem foldl_nearest_mem (c p : RGB) (ps : List RGB) :
    ps.foldl (fun best q => if sqDist q c < sqDist best c then q else best) p ∈ p :: ps := by
  induction ps generalizing p with
  | nil => simp
  | cons q qs ih =>
      simp only [List.foldl_cons]
      rcases List.mem_cons.mp (ih (if sqDist q c < sqDist p c then q else p)) with h1 | h1
      · rw [h1]
        by_cases hq : sqDist q c < sqDist p c <;> simp [hq]
      · simp [h1]

theorem nearestColor_mem (pal : List RGB) (c : RGB) (h : pal ≠ []) :
    nearestColor pal c ∈ pal := by
  match pal with
  | p :: ps => exact foldl_nearest_mem c p ps

theorem medianCutQuantizeRGB_mem (px : List RGB) (k : Nat) (c : RGB)
    (hc : c ∈ medianCutQuantizeRGB px k) : c ∈ medianCutPalette px k := by
  unfold medianCutQuantizeRGB at hc
  rcases List.mem_map.mp hc with ⟨d, _, hd⟩
  rw [← hd]
  exact nearestColor_mem _ _ (medianCutPalette_ne_nil px k)

theorem medianCutQuantizeRGB_length (px : List RGB) (k : Nat) :
    (medianCutQuantizeRGB px k).length = px.length := by
  unfold medianCutQuantizeRGB
  exact List.length_map _ _

/-! ## Enhancement (contrast and saturation)

`apply_pixelation` (lines 182-217) applies `ImageEnhance.Contrast` and
`ImageEnhance.Color` only when the factor differs from `1.0`; for RGBA
input it first flattens the pixels onto a black `RGB` canvas through the
image's own alpha mask (`Image.new('RGB', size)` defaults to black and
`paste(img, mask=alpha)` is the `Paste.c` blend above), enhances that, and
reattaches the original alpha band.  The numeric content of the enhancers
is library code; it is modelled from spec §4.2. -/

/-- Modelled from the spec: the luma of a color, with the standard
ITU-R 601 weights — spec §4.2 requires one fixed, documented weighting
(the open question of §9 is resolved here by the standard choice). -/
def lumaQ (c : RGB) : ℚ := (299 * c.r + 587 * c.g + 114 * c.b : ℚ) / 1000

/-- Round a rational to the nearest integer and clamp to the 8-bit sample
range, as the enhancement formulas of spec §4.2 require. -/
def clampRound (x : ℚ) : Nat := (max 0 (min 255 (round x))).toNat

/-- Modelled from the spec: the enhancement basis for contrast — the mean
luma of the whole buffer, reused for every pixel of the run (§4.2). -/
def meanLuma (px : List RGB) : ℚ :=
  if px.length = 0 then 0 else (px.map lumaQ).sum / px.length

/-- Modelled from the spec: per-channel contrast step
`new = mean + (old - mean) * contrast`, clamped to `[0, 255]` (§4.2). -/
def contrastRGBList (px : List RGB) (contrast : ℚ) : List RGB :=
  let m := meanLuma px
  px.map (fun c =>
    ⟨clampRound (m + (c.r - m) * contrast),
     clampRound (m + (c.g - m) * contrast),
     clampRound (m + (c.b - m) * contrast)⟩)

/-- Modelled from the spec: per-channel saturation step
`new = g + (old - g) * saturation` with `g` the pixel's luma, clamped
(§4.2). -/
def saturationRGBList (px : List RGB) (saturation : ℚ) : List RGB :=
  px.map (fun c =>
    let g := lumaQ c
    ⟨clampRound (g + (c.r - g) * saturation),
     clampRound (g + (c.g - g) * saturation),
     clampRound (g + (c.b - g) * saturation)⟩)

/-- Shared shape of the two enhancement blocks of `apply_pixelation`:
skip entirely when the factor is `1.0`; on RGBA, flatten onto black
through the alpha mask, enhance the RGB plane, reattach alpha; otherwise
enhance in place.  (Gray and palette modes never reach this point:
`load_image` normalizes every source to RGB or RGBA; they pass through
unchanged.) -/
def enhanceWith (f : List RGB → ℚ → List RGB) (img : Image) (factor : ℚ) : Image :=
  if factor = 1 then img
  else
    match img with
    | .rgba w h px =>
        let rgbPart := px.map (compositePixel ⟨0, 0, 0⟩)
        let enhanced := f rgbPart factor
        .rgba w h (List.zipWith (fun c p => ⟨c.r, c.g, c.b, p.a⟩) enhanced px)
    | .rgb w h px => .rgb w h (f px factor)
    | other => other

/-- Lines 183-199 of `apply_pixelation`: the contrast block. -/
def contrastStage (img : Image) (contrast : ℚ) : Image :=
  enhanceWith contrastRGBList img contrast

/-- Lines 201-217 of `apply_pixelation`: the saturation block. -/
def saturationStage (img : Image) (saturation : ℚ) : Image :=
  enhanceWith saturationRGBList img saturation

/-- The full enhancement stage of `apply_pixelation`: contrast, then
saturation. -/
def enhanceStage (img : Image) (contrast saturation : ℚ) : Image :=
  saturationStage (contrastStage img contrast) saturation

theorem width_enhanceWith (f : List RGB → ℚ → List RGB) (img : Image) (factor : ℚ) :
    (enhanceWith f img factor).width = img.width := by
  unfold enhanceWith
  by_cases hf : factor = 1
  · simp [hf]
  · cases img <;> simp [hf, Image.width]

theorem height_enhanceWith (f : List RGB → ℚ → List RGB) (img : Image) (factor : ℚ) :
    (enhanceWith f img factor).height = img.height := by
  unfold enhanceWith
  by_cases hf : factor = 1
  · simp [hf]
  · cases img <;> simp [hf, Image.height]

theorem width_enhanceStage (img : Image) (c s : ℚ) :
    (enhanceStage img c s).width = img.width := by
  unfold enhanceStage contrastStage saturationStage
  rw [width_enhanceWith, width_enhanceWith]

theorem height_enhanceStage (img : Image) (c s : ℚ) :
    (enhanceStage img c s).height = img.height := by
  unfold enhanceStage contrastStage saturationStage
  rw [height_enhanceWith, height_enhanceWith]

/-! ## The processor state and `apply_pixelation` -/

/-- The mutable fields of the `ImageProcessor` object (lines 14-18). -/
structure ProcessorState where
  original : Option Image
  processed : Option Image
  has_transparency : Bool
  background_color : RGB
deriving Repr

/-- Lines 177-180 of `apply_pixelation`: composite the working copy with
the background color when the source has transparency and it is not to be
preserved; otherwise pass the copy through. -/
def workingImage (s : ProcessorState) (img0 : Image) (preserve_transparency : Bool) : Image :=
  if s.has_transparency && !preserve_transparency
    then composite_with_background img0 s.background_color else img0

theorem width_workingImage (s : ProcessorState) (img0 : Image) (pt : Bool) :
    (workingImage s img0 pt).width = img0.width := by
  unfold workingImage
  split
  · rw [width_composite]
  · rfl

theorem height_workingImage (s : ProcessorState) (img0 : Image) (pt : Bool) :
    (workingImage s img0 pt).height = img0.height := by
  unfold workingImage
  split
  · rw [height_composite]
  · rfl

/-- Lines 219-238 of `apply_pixelation`: the size computation, the
degenerate-size check and the downscale → quantize → upscale core, run on
the already enhanced working buffer `img2`.  The caught exceptions of the
source appear as explicit failure returns: `pixel_size == 0` raises
`ZeroDivisionError` at `width // pixel_size`, and a `num_colors` outside
`1..256` makes the library quantizer raise; both are swallowed by the
`except` into `return False` with the state untouched. -/
def pixelateFrom (s : ProcessorState) (img2 : Image) (pixel_size num_colors : Nat) :
    Bool × ProcessorState :=
  if pixel_size = 0 then (false, s)
  else if img2.width / pixel_size = 0 ∨ img2.height / pixel_size = 0 then (false, s)
  else if num_colors = 0 ∨ 256 < num_colors then (false, s)
  else
    let out := (quantize_colors_with_alpha
      (img2.resizeNearest (img2.width / pixel_size) (img2.height / pixel_size))
      num_colors).resizeNearest img2.width img2.height
    (true, { s with processed := some out })

/-- The embedding of `ImageProcessor.apply_pixelation` (lines 154-242).
The Python method returns a success flag and mutates only
`self.processed_image`; here it returns the flag paired with the new
state. -/
def apply_pixelation (s : ProcessorState) (pixel_size num_colors : Nat)
    (contrast saturation : ℚ) (preserve_transparency : Bool) : Bool × ProcessorState :=
  match s.original with
  | none => (false, s)
  | some img0 =>
      pixelateFrom s
        (enhanceStage (workingImage s img0 preserve_transparency) contrast saturation)
        pixel_size num_colors

/-- The downscale step of `apply_pixelation` in isolation (lines 229-230):
`img.resize((width // pixel_size, height // pixel_size), NEAREST)`. -/
def downscaleStep (img : Image) (pixel_size : Nat) : Image :=
  img.resizeNearest (img.width / pixel_size) (img.height / pixel_size)

/-- The processed buffer held by a state, defaulting to an empty image;
used only to state concrete counterexamples. -/
def processedOf (s : ProcessorState) : Image :=
  s.processed.getD (.rgb 0 0 [])

/-! ## General helper lemmas -/

/-- Failure lemma: with a loaded original whose dimensions make
`width // pixel_size` or `height // pixel_size` zero (including the
`pixel_size = 0` exception path), `apply_pixelation` reports failure and
returns the state unchanged. -/
theorem apply_pixelation_degenerate (s : ProcessorState) (img : Image) (p k : Nat)
    (c sat : ℚ) (pt : Bool) (horig : s.original = some img)
    (hz : img.width / p = 0 ∨ img.height / p = 0) :
    apply_pixelation s p k c sat pt = (false, s) := by
  have hw : (enhanceStage (workingImage s img pt) c sat).width = img.width := by
    rw [width_enhanceStage, width_workingImage]
  have hh : (enhanceStage (workingImage s img pt) c sat).height = img.height := by
    rw [height_enhanceStage, height_workingImage]
  simp only [apply_pixelation, horig, pixelateFrom, hw, hh]
  by_cases hp : p = 0
  · simp [hp]
  · rw [if_neg hp, if_pos hz]

theorem zipWith_const_right (f : β → γ) (l1 : List α) (l2 : List β)
    (hlen : l1.length = l2.length) :
    List.zipWith (fun _ p => f p) l1 l2 = l2.map f := by
  induction l1 generalizing l2 with
  | nil =>
      cases l2 with
      | nil => rfl
      | cons b l2 => simp at hlen
  | cons a l1 ih =>
      cases l2 with
      | nil => simp at hlen
      | cons b l2 => simp [ih l2 (by simpa using hlen)]

theorem mem_zipWith_of_proj (f : α → β → α) (hf : ∀ a b, f a b = a)
    (l1 : List α) (l2 : List β) (x : α) (hx : x ∈ List.zipWith f l1 l2) : x ∈ l1 := by
  induction l1 generalizing l2 with
  | nil => simp at hx
  | cons a l1 ih =>
      cases l2 with
      | nil => simp at hx
      | cons b l2 =>
          rw [List.zipWith_cons_cons, hf] at hx
          rcases List.mem_cons.mp hx with h | h
          · exact h ▸ List.mem_cons_self _ _
          · exact List.mem_cons_of_mem _ (ih l2 h)

theorem dedup_length_le_of_subset (l pal : List RGB) (h : ∀ x ∈ l, x ∈ pal) :
    l.dedup.length ≤ pal.length := by
  have h1 : l.toFinset ⊆ pal.toFinset := by
    intro x hx
    rw [List.mem_toFinset] at hx ⊢
    exact h x hx
  calc l.dedup.length = l.toFinset.card := (List.card_toFinset l).symm
  _ ≤ pal.toFinset.card := Finset.card_le_card h1
  _ ≤ pal.length := List.toFinset_card_le pal

/-- Count of distinct RGB colors of a buffer (alpha excluded). -/
def distinctRGBCount (img : Image) : Nat := img.rgbList.dedup.length

theorem quantized_dedup_le (px : List RGB) (k : Nat) (hk : 1 ≤ k) :
    (medianCutQuantizeRGB px k).dedup.length ≤ k :=
  le_trans
    (dedup_length_le_of_subset _ _ (fun x hx => medianCutQuantizeRGB_mem px k x hx))
    (medianCutPalette_length px k hk)

/-! ## Concrete fixtures for witnesses and counterexamples -/

/-- A 2 × 2 RGB test image with four distinct colors. -/
def imgTiny : Image := .rgb 2 2 [⟨0, 0, 0⟩, ⟨255, 0, 0⟩, ⟨0, 255, 0⟩, ⟨0, 0, 255⟩]

/-- A processor state holding `imgTiny` as the loaded original. -/
def stateTiny : ProcessorState := ⟨some imgTiny, none, false, ⟨255, 255, 255⟩⟩

/-- A processor state with no loaded original. -/
def stateEmpty : ProcessorState := ⟨none, none, false, ⟨255, 255, 255⟩⟩

/-- A 2 × 1 RGB image holding black and white. -/
def imgBW : Image := .rgb 2 1 [⟨0, 0, 0⟩, ⟨255, 255, 255⟩]

/-- A fully opaque 1 × 1 RGBA image (every alpha sample is 255). -/
def opaqueRGBA : Image := .rgba 1 1 [⟨7, 7, 7, 255⟩]

/-- A 7 × 2 RGB image whose second row alternates gray, black and white so
that the downscaled row is `[black, black, white]`. -/
def ceImg : Image := .rgb 7 2
  [⟨9, 9, 9⟩, ⟨9, 9, 9⟩, ⟨9, 9, 9⟩, ⟨9, 9, 9⟩, ⟨9, 9, 9⟩, ⟨9, 9, 9⟩, ⟨9, 9, 9⟩,
   ⟨9, 9, 9⟩, ⟨0, 0, 0⟩, ⟨9, 9, 9⟩, ⟨0, 0, 0⟩, ⟨9, 9, 9⟩, ⟨255, 255, 255⟩, ⟨9, 9, 9⟩]

/-- A processor state holding `ceImg` as the loaded original. -/
def ceState : ProcessorState := ⟨some ceImg, none, false, ⟨255, 255, 255⟩⟩

/-! ## The claims -/

/-- C5: the enhancement stage with `contrast == 1.0` and
`saturation == 1.0` is a bit-exact identity — the buffer it passes on to
the downscale step equals its input buffer sample for sample. -/
theorem C5_enhance_identity (img : Image) : enhanceStage img 1 1 = img := by
  unfold enhanceStage saturationStage contrastStage enhanceWith
  simp

/-- C9: `apply_pixelation` (whether it succeeds or fails) leaves the
loaded original buffer exactly as it was, so repeated runs with new
parameters read identical input. -/
theorem C9_original_preserved (s : ProcessorState) (p k : Nat) (c sat : ℚ) (pt : Bool) :
    ((apply_pixelation s p k c sat pt).2).original = s.original := by
  unfold apply_pixelation pixelateFrom
  cases h : s.original with
  | none => exact h
  | some img0 =>
      dsimp only
      split
      · exact h
      · split
        · exact h
        · split
          · exact h
          · rfl

/-- C3: with a loaded image and a block size making
`width // pixel_size == 0` or `height // pixel_size == 0`,
`apply_pixelation` fails and never installs a zero-area processed buffer —
the whole state is returned unchanged. -/
theorem C3_degenerate_size (s : ProcessorState) (img : Image) (p k : Nat)
    (c sat : ℚ) (pt : Bool) (horig : s.original = some img)
    (hz : img.width / p = 0 ∨ img.height / p = 0) :
    (apply_pixelation s p k c sat pt).1 = false ∧
    (apply_pixelation s p k c sat pt).2 = s := by
  rw [apply_pixelation_degenerate s img p k c sat pt horig hz]
  exact ⟨rfl, rfl⟩

/-- C3 witness: `pixel_size = 3` on the 2 × 2 `imgTiny` satisfies the
degenerate-size hypothesis, and the call fails with the state unchanged. -/
theorem C3_degenerate_size_witness :
    (apply_pixelation stateTiny 3 8 1 1 true).1 = false ∧
    (apply_pixelation stateTiny 3 8 1 1 true).2 = stateTiny :=
  C3_degenerate_size stateTiny imgTiny 3 8 1 1 true rfl (Or.inl (by decide))

/-- C10: when `apply_pixelation` fails before producing a result — no
loaded original, or `width // pixel_size == 0` or
`height // pixel_size == 0` — the stored processed image is exactly what
it was before the call. -/
theorem C10_failure_atomic (s : ProcessorState) (p k : Nat) (c sat : ℚ) (pt : Bool)
    (h : s.original = none ∨
      ∃ img, s.original = some img ∧ (img.width / p = 0 ∨ img.height / p = 0)) :
    (apply_pixelation s p k c sat pt).1 = false ∧
    (apply_pixelation s p k c sat pt).2.processed = s.processed := by
  rcases h with h | ⟨img, horig, hz⟩
  · unfold apply_pixelation
    rw [h]
    exact ⟨rfl, rfl⟩
  · rw [apply_pixelation_degenerate s img p k c sat pt horig hz]
    exact ⟨rfl, rfl⟩

/-- C10 witness: calling `apply_pixelation` on a state with no loaded
image fails and keeps the (empty) processed slot unchanged. -/
theorem C10_failure_atomic_witness :
    (apply_pixelation stateEmpty 1 8 1 1 true).1 = false ∧
    (apply_pixelation stateEmpty 1 8 1 1 true).2.processed = stateEmpty.processed :=
  C10_failure_atomic stateEmpty 1 8 1 1 true (Or.inl rfl)

/-- C4: for RGBA input, `quantize_colors_with_alpha` leaves the alpha
value of every pixel unchanged — the output's alpha band equals the
input's, pixel for pixel. -/
theorem C4_alpha_preserved (w h : Nat) (px : List RGBA) (k : Nat) :
    (quantize_colors_with_alpha (Image.rgba w h px) k).alphaList =
      (Image.rgba w h px).alphaList := by
  unfold quantize_colors_with_alpha Image.alphaList
  dsimp only
  rw [List.map_zipWith]
  exact zipWith_const_right _ _ _
    (by rw [medianCutQuantizeRGB_length, List.length_map])

/-- C2: quantization emits at most `k` distinct RGB colors, for RGB and
RGBA input alike (alpha values excluded from the count). -/
theorem C2_palette_bound (img : Image) (k : Nat) (hk1 : 1 ≤ k) (_hk2 : k ≤ 256) :
    distinctRGBCount (quantize_colors_with_alpha img k) ≤ k := by
  cases img with
  | rgba w h px =>
      unfold distinctRGBCount quantize_colors_with_alpha Image.rgbList
      dsimp only
      refine le_trans (dedup_length_le_of_subset _ (medianCutPalette (px.map rgbOf) k) ?_)
        (medianCutPalette_length _ k hk1)
      intro x hx
      rw [List.map_zipWith] at hx
      exact medianCutQuantizeRGB_mem _ k x
        (mem_zipWith_of_proj _ (fun a b => rfl) _ _ _ hx)
  | rgb w h px => exact quantized_dedup_le px k hk1
  | la w h px => exact quantized_dedup_le _ k hk1
  | l w h px => exact quantized_dedup_le _ k hk1
  | pal w h px palette t => exact quantized_dedup_le _ k hk1

/-- C2 witness: quantizing the black-and-white `imgBW` to one color leaves
at most one distinct RGB color. -/
theorem C2_palette_bound_witness :
    distinctRGBCount (quantize_colors_with_alpha imgBW 1) ≤ 1 :=
  C2_palette_bound imgBW 1 (by decide) (by decide)

/-- C7 counterexample: a fully opaque RGBA buffer (every alpha is 255, no
palette transparency) must be reported non-transparent by the claim, but
the source's `_has_transparency` checks only the mode string and reports
`True`. -/
theorem C7_counterexample :
    _has_transparency opaqueRGBA = true ∧ specDetectTransparency opaqueRGBA = false := by
  decide

/-- C7 amended: transparency detection is mode-based — it returns true iff
the buffer's mode carries an alpha channel at all (RGBA or LA, regardless
of the stored alpha values), or the source is palette-indexed and declares
a designated transparent index. -/
theorem C7_detection_mode_based (img : Image) :
    _has_transparency img = (isAlphaMode img || declaresTransparentIndex img) := by
  cases img <;> rfl

/-- C6 counterexample: at alpha 128 over channel value 1 with background
254 the source's compositing (Pillow's sum of two per-term rounded
products) yields 128, while the claim's single integer-rounded mix
`round(alpha/255 * rgb + (1 - alpha/255) * background)` yields 127. -/
theorem C6_counterexample :
    (composite_with_background (Image.rgba 1 1 [⟨1, 1, 1, 128⟩]) ⟨254, 254, 254⟩).getPx 0 =
      ⟨128, 128, 128, 255⟩ ∧
    roundedAlphaMix 128 1 254 = 127 := by
  decide

/-- C6 amended: compositing maps an RGBA buffer to an RGB buffer (no alpha
channel) by blending every pixel with the background; a pixel with alpha
255 passes its RGB values through unchanged and a pixel with alpha 0
becomes the background color exactly; in general each output channel is
the sum of the two per-term roundings
`(bg*(255-a)+127)/255 + (rgb*a+127)/255` (Pillow's `MULDIV255` blend),
which can differ by one from rounding the exact convex combination. -/
theorem C6_composite (w h : Nat) (px : List RGBA) (bg : RGB) (p : RGBA)
    (hbr : bg.r ≤ 255) (hbgg : bg.g ≤ 255) (hbb : bg.b ≤ 255)
    (hpr : p.r ≤ 255) (hpg : p.g ≤ 255) (hpb : p.b ≤ 255) (hpa : p.a ≤ 255) :
    composite_with_background (Image.rgba w h px) bg =
      Image.rgb w h (px.map (compositePixel bg)) ∧
    ((compositePixel bg p).r = (bg.r * (255 - p.a) + 127) / 255 + (p.r * p.a + 127) / 255 ∧
     (compositePixel bg p).g = (bg.g * (255 - p.a) + 127) / 255 + (p.g * p.a + 127) / 255 ∧
     (compositePixel bg p).b = (bg.b * (255 - p.a) + 127) / 255 + (p.b * p.a + 127) / 255) ∧
    (p.a = 255 → compositePixel bg p = rgbOf p) ∧
    (p.a = 0 → compositePixel bg p = bg) := by
  refine ⟨rfl, ⟨?_, ?_, ?_⟩, ?_, ?_⟩
  · show blendChan p.a bg.r p.r = _
    unfold blendChan
    rw [muldiv255_eq _ _ hbr (by omega), muldiv255_eq _ _ hpr hpa]
  · show blendChan p.a bg.g p.g = _
    unfold blendChan
    rw [muldiv255_eq _ _ hbgg (by omega), muldiv255_eq _ _ hpg hpa]
  · show blendChan p.a bg.b p.b = _
    unfold blendChan
    rw [muldiv255_eq _ _ hbb (by omega), muldiv255_eq _ _ hpb hpa]
  · intro ha
    unfold compositePixel blendChan rgbOf
    rw [ha]
    simp [muldiv255_zero, muldiv255_255 _ hpr, muldiv255_255 _ hpg, muldiv255_255 _ hpb]
  · intro ha
    unfold compositePixel blendChan
    rw [ha]
    simp [muldiv255_zero, muldiv255_255 _ hbr, muldiv255_255 _ hbgg, muldiv255_255 _ hbb]

/-- A concrete opaque RGBA pixel for the C6 witness. -/
def pxC6 : RGBA := ⟨10, 20, 30, 255⟩

/-- A concrete background color for the C6 witness. -/
def bgC6 : RGB := ⟨1, 2, 3⟩

/-- C6 witness: the amended compositing theorem applied at a concrete
opaque pixel and background. -/
theorem C6_composite_witness :
    composite_with_background (Image.rgba 1 1 [pxC6]) bgC6 =
      Image.rgb 1 1 ([pxC6].map (compositePixel bgC6)) ∧
    ((compositePixel bgC6 pxC6).r =
        (bgC6.r * (255 - pxC6.a) + 127) / 255 + (pxC6.r * pxC6.a + 127) / 255 ∧
     (compositePixel bgC6 pxC6).g =
        (bgC6.g * (255 - pxC6.a) + 127) / 255 + (pxC6.g * pxC6.a + 127) / 255 ∧
     (compositePixel bgC6 pxC6).b =
        (bgC6.b * (255 - pxC6.a) + 127) / 255 + (pxC6.b * pxC6.a + 127) / 255) ∧
    (pxC6.a = 255 → compositePixel bgC6 pxC6 = rgbOf pxC6) ∧
    (pxC6.a = 0 → compositePixel bgC6 pxC6 = bgC6) :=
  C6_composite 1 1 [pxC6] bgC6 pxC6 (by decide) (by decide) (by decide)
    (by decide) (by decide) (by decide) (by decide)

/-- C8 counterexample: downscaling the 2 × 2 `imgTiny` by `pixel_size = 2`
yields the sample of source pixel (1, 1) — the block center under
Pillow's nearest mapping — not the top-left source pixel (0, 0) the claim
names. -/
theorem C8_counterexample :
    (downscaleStep imgTiny 2).getPx 0 = ⟨0, 0, 255, 255⟩ ∧
    imgTiny.getPx (0 * 2 + 0) = ⟨0, 0, 0, 255⟩ ∧
    (downscaleStep imgTiny 2).getPx 0 ≠ imgTiny.getPx (0 * 2 + 0) := by
  decide

/-- C8 amended: the downscale step produces a buffer of size
`(width // pixel_size, height // pixel_size)` whose pixel `(i, j)` is one
single nearest-neighbor source sample, with no averaging — the sample at
`x = ((2i+1)·width) / (2·(width // pixel_size))`,
`y = ((2j+1)·height) / (2·(height // pixel_size))` (near the center of the
source block, not its top-left corner). -/
theorem C8_downscale_center_sample (img : Image) (p i j : Nat)
    (hi : i < img.width / p) (hj : j < img.height / p) :
    (downscaleStep img p).width = img.width / p ∧
    (downscaleStep img p).height = img.height / p ∧
    (downscaleStep img p).getPx (j * (img.width / p) + i) =
      img.getPx (scaleIndex img.height (img.height / p) j * img.width +
        scaleIndex img.width (img.width / p) i) :=
  ⟨width_resizeNearest _ _ _, height_resizeNearest _ _ _,
    getPx_resizeNearest img _ _ i j hi hj⟩

/-- C8 witness: the amended downscale theorem applied to `imgTiny` with
`pixel_size = 2` at output pixel (0, 0). -/
theorem C8_downscale_center_sample_witness :
    (downscaleStep imgTiny 2).width = imgTiny.width / 2 ∧
    (downscaleStep imgTiny 2).height = imgTiny.height / 2 ∧
    (downscaleStep imgTiny 2).getPx (0 * (imgTiny.width / 2) + 0) =
      imgTiny.getPx (scaleIndex imgTiny.height (imgTiny.height / 2) 0 * imgTiny.width +
        scaleIndex imgTiny.width (imgTiny.width / 2) 0) :=
  C8_downscale_center_sample imgTiny 2 0 0 (by decide) (by decide)

/-! ## Block uniformity (C1) -/

theorem two_mul_add_one_div (p x : Nat) (hp : 0 < p) :
    (2 * x + 1) / (2 * p) = x / p := by
  have hr : x % p < p := Nat.mod_lt x hp
  have h1 : 2 * x + 1 = (2 * (x % p) + 1) + (2 * p) * (x / p) := by
    have h2 := Nat.div_add_mod x p
    have h3 : (2 * p) * (x / p) = 2 * (p * (x / p)) := by ring
    omega
  rw [h1, Nat.add_mul_div_left _ _ (by omega : 0 < 2 * p),
    Nat.div_eq_of_lt (by omega), Nat.zero_add]

/-- Upscaling from `nw` to `nw * p` pixels sends output position `x` to
source position `x / p`: Pillow's nearest sampling respects exact integer
block replication. -/
theorem scaleIndex_upscale (nw p x : Nat) (hnw : 0 < nw) (hp : 0 < p) :
    scaleIndex nw (nw * p) x = x / p := by
  unfold scaleIndex
  rw [show 2 * (nw * p) = (2 * p) * nw by ring, Nat.mul_div_mul_right _ _ hnw]
  exact two_mul_add_one_div p x hp

theorem scaleIndex_div (W p x : Nat) (hdv : p ∣ W) (hW : 0 < W / p) (hp : 0 < p) :
    scaleIndex (W / p) W x = x / p := by
  have h1 : W / p * p = W := Nat.div_mul_cancel hdv
  calc scaleIndex (W / p) W x = scaleIndex (W / p) (W / p * p) x := by rw [h1]
  _ = x / p := scaleIndex_upscale (W / p) p x hW hp

/-- C1 counterexample: the 7 × 2 image `ceImg` with `pixel_size = 2`
satisfies the claim's hypotheses (`7 // 2 = 3 ≥ 1`, `2 // 2 = 1 ≥ 1`) and
the run succeeds, but the aligned 2 × 2 block covering columns 4 and 5
holds two colors: the nearest upscale from width 3 to width 7 switches
source pixel inside that block. -/
theorem C1_counterexample :
    (apply_pixelation ceState 2 2 1 1 true).1 = true ∧
    (4 : Nat) / 2 = 5 / 2 ∧ (4 : Nat) < 7 ∧ (5 : Nat) < 7 ∧
    (processedOf (apply_pixelation ceState 2 2 1 1 true).2).getPx (0 * 7 + 4) ≠
      (processedOf (apply_pixelation ceState 2 2 1 1 true).2).getPx (0 * 7 + 5) := by
  decide

/-- C1 amended: when `pixel_size` divides both dimensions (the downscaled
size being nonzero and the palette size in range), `apply_pixelation`
succeeds, the result keeps the original width and height, and any two
positions of the same aligned `pixel_size × pixel_size` block of the
output hold the same color.  Without the divisibility requirement the
uniformity can fail (see the counterexample): the nearest upscale from
`width // pixel_size` back to `width` does not respect the aligned block
grid. -/
theorem C1_block_uniformity (s : ProcessorState) (img : Image) (p k : Nat)
    (c sat : ℚ) (pt : Bool)
    (horig : s.original = some img)
    (hdw : p ∣ img.width) (hdh : p ∣ img.height)
    (hnw : 1 ≤ img.width / p) (hnh : 1 ≤ img.height / p)
    (hk1 : 1 ≤ k) (hk2 : k ≤ 256) :
    (apply_pixelation s p k c sat pt).1 = true ∧
    ∃ out, (apply_pixelation s p k c sat pt).2.processed = some out ∧
      out.width = img.width ∧ out.height = img.height ∧
      ∀ x1 y1 x2 y2, x1 < img.width → y1 < img.height →
        x2 < img.width → y2 < img.height →
        x1 / p = x2 / p → y1 / p = y2 / p →
        out.getPx (y1 * img.width + x1) = out.getPx (y2 * img.width + x2) := by
  have hp : 0 < p := by
    rcases Nat.eq_zero_or_pos p with h0 | h0
    · rw [h0, Nat.div_zero] at hnw
      omega
    · exact h0
  have hw2 : (enhanceStage (workingImage s img pt) c sat).width = img.width := by
    rw [width_enhanceStage, width_workingImage]
  have hh2 : (enhanceStage (workingImage s img pt) c sat).height = img.height := by
    rw [height_enhanceStage, height_workingImage]
  simp only [apply_pixelation, horig, pixelateFrom, hw2, hh2]
  rw [if_neg (by omega : ¬ p = 0),
    if_neg (by omega : ¬ (img.width / p = 0 ∨ img.height / p = 0)),
    if_neg (by omega : ¬ (k = 0 ∨ 256 < k))]
  refine ⟨rfl, ⟨_, rfl, width_resizeNearest _ _ _, height_resizeNearest _ _ _, ?_⟩⟩
  intro x1 y1 x2 y2 hx1 hy1 hx2 hy2 hxp hyp
  rw [getPx_resizeNearest _ _ _ x1 y1 hx1 hy1, getPx_resizeNearest _ _ _ x2 y2 hx2 hy2,
    width_quantize, height_quantize, width_resizeNearest, height_resizeNearest,
    scaleIndex_div img.width p x1 hdw (by omega) hp,
    scaleIndex_div img.width p x2 hdw (by omega) hp,
    scaleIndex_div img.height p y1 hdh (by omega) hp,
    scaleIndex_div img.height p y2 hdh (by omega) hp,
    hxp, hyp]

/-- C1 witness: the amended block-uniformity theorem applied to the 2 × 2
`imgTiny` with `pixel_size = 2` and one palette color. -/
theorem C1_block_uniformity_witness :
    (apply_pixelation stateTiny 2 1 1 1 true).1 = true ∧
    ∃ out, (apply_pixelation stateTiny 2 1 1 1 true).2.processed = some out ∧
      out.width = imgTiny.width ∧ out.height = imgTiny.height ∧
      ∀ x1 y1 x2 y2, x1 < imgTiny.width → y1 < imgTiny.height →
        x2 < imgTiny.width → y2 < imgTiny.height →
        x1 / 2 = x2 / 2 → y1 / 2 = y2 / 2 →
        out.getPx (y1 * imgTiny.width + x1) = out.getPx (y2 * imgTiny.width + x2) :=
  C1_block_uniformity stateTiny imgTiny 2 1 1 1 true rfl (by decide) (by decide)
    (by decide) (by decide) (by decide) (by decide)

end Img2Pix
